import Mathlib

/-!
Verification model of the mbed-os events library (events/EventQueue.h and the
underlying equeue core it drives).

The repository sources under scrutiny contain the header events/EventQueue.h:
the user-facing posting wrappers (call, call_in, call_every), the context
argument-binding structures, the function_call / function_dtor thunks, and
the size macros EVENTS_EVENT_SIZE and EVENTS_QUEUE_SIZE.  The equeue core
itself (the slab allocator, timed queue, dispatcher, handle registry, tick
source and chain relay declared in events/equeue.h) is not part of the
sources, only its callers and declarations are; those parts are modelled from
the specification, and every such definition is marked with a doc comment
starting with the words Modelled from the spec.
-/

namespace EventQueueModel

/-- Modelled from the spec (tick source, section 4.2): ticks are unsigned
32-bit millisecond counts, wrapping at 2 to the 32. -/
def U32 : Nat := 2 ^ 32

/-- Half the tick range; deadlines up to HALF - 1 ms in the future are
well-ordered under the signed modular comparison. -/
def HALF : Nat := 2 ^ 31

/-- Modelled from the spec (timed queue, section 4.3): the signed 32-bit
difference of two ticks, computed in twos-complement form: the result lies in
the interval from minus 2 to the 31 up to 2 to the 31 minus 1. -/
def tickdiff (a b : Nat) : Int :=
  if (a + U32 - b % U32) % U32 < HALF then (((a + U32 - b % U32) % U32 : Nat) : Int)
  else (((a + U32 - b % U32) % U32 : Nat) : Int) - (U32 : Int)

/-- Modelled from the spec (tick source, section 4.2): now as a u32 value,
the monotonic millisecond counter reduced modulo 2 to the 32. -/
def tickOf (ms : Nat) : Nat := ms % U32

/-- Modelled from the spec (data model, section 3): a slot is free (on the
free list), pending (linked in the timed queue) or executing (briefly,
during dispatch). -/
inductive SlotState where
  | free
  | pending
  | executing
deriving DecidableEq

/-- Modelled from the spec (data model, section 3): header bookkeeping of a
slot that survives across events: the generation counter (u16, incremented
on every transition out of pending) and the lifecycle state. -/
structure Slot where
  generation : Nat
  state : SlotState
deriving DecidableEq

/-- Modelled from the spec (data model, section 3): an event linked in the
pending list: the slot it occupies, its absolute target deadline in
milliseconds (its u32 representation is the value modulo 2 to the 32; all
comparisons go through tickdiff, which only sees that residue), its period
(minus one for one-shot, else the reschedule interval) and its payload (the
captured zero-arity callable; abstracted to a value of type alpha). -/
structure PendEv (α : Type) where
  slotIdx : Nat
  deadline : Nat
  period : Int
  payload : α
deriving DecidableEq

/-- Modelled from the spec (sections 3, 4.1, 4.3, 4.4): the queue state: the
slot headers of the slab, the free list (a LIFO stack of slot indices), the
pending list sorted by deadline, and two observation logs: the payloads
invoked by the dispatcher in order, and the payloads whose destructor ran,
in order. -/
structure EQueue (α : Type) where
  slots : List Slot
  freeList : List Nat
  pending : List (PendEv α)
  fireLog : List α
  dtorLog : List α
deriving DecidableEq

/-- Modelled from the spec (slab allocator, section 4.1): the initial state:
every slot has generation zero, is free, and is linked into the free list in
index order; nothing is pending. -/
def freshQueue (α : Type) (cap : Nat) : EQueue α :=
  { slots := List.replicate cap ⟨0, SlotState.free⟩
    freeList := List.range cap
    pending := []
    fireLog := []
    dtorLog := [] }

/-- Modelled from the spec (timed queue, section 4.3): insertion walks from
the head past every cursor that is not later than the new slot, so that the
new event lands after all events with an earlier-or-equal deadline.  Among
equal deadlines this preserves post order, the FIFO tie-break of sections
4.3 and 5. -/
def insertPend (now : Nat) (e : PendEv α) : List (PendEv α) → List (PendEv α)
  | [] => [e]
  | x :: xs =>
    if tickdiff x.deadline now ≤ tickdiff e.deadline now then
      x :: insertPend now e xs
    else
      e :: x :: xs

/-- Modelled from the spec (handle registry, section 4.4): the number of low
bits of an id that hold the slot index plus one; enough bits to represent
every value from 1 up to the capacity. -/
def shBits (cap : Nat) : Nat := Nat.log2 cap + 1

/-- Modelled from the spec (handle registry, section 4.4): an id is a 32-bit
value carrying the slot generation (u16) in the high bits and the slot index
plus one in the low bits; written with multiplication and addition, which
agree with shift and bitwise-or because the index part is below the shift. -/
def encodeId (cap generation idx : Nat) : Nat :=
  (generation % 2 ^ 16 * 2 ^ shBits cap + (idx + 1)) % U32

/-- Modelled from the spec (handle registry, section 4.4): decode an id into
its slot index and generation field; the reserved id 0 (and any id whose
index field is zero) decodes to nothing. -/
def decodeId (cap id : Nat) : Option (Nat × Nat) :=
  if id % 2 ^ shBits cap = 0 then none
  else some (id % 2 ^ shBits cap - 1, id / 2 ^ shBits cap)

/-- Modelled from the spec (post path, sections 2 and 6): allocate a slot
from the free list; on failure return id 0 with no other state change, else
register the handle from the slot generation, mark the slot pending, and
insert the event into the timed queue at deadline now plus delay. -/
def post (q : EQueue α) (now delay : Nat) (period : Int) (payload : α) :
    Nat × EQueue α :=
  match q.freeList with
  | [] => (0, q)
  | i :: rest =>
    let s := q.slots.getD i ⟨0, SlotState.free⟩
    let id := encodeId q.slots.length s.generation i
    (id, { q with
            freeList := rest
            slots := q.slots.set i ⟨s.generation, SlotState.pending⟩
            pending := insertPend now ⟨i, now + delay, period, payload⟩ q.pending })

/-- EventQueue::call (EventQueue.h lines 633-644): allocate, construct the
callable in place, register the destructor, and post with no delay and no
period.  Allocation failure yields id 0 before any of the later steps. -/
def call (q : EQueue α) (now : Nat) (payload : α) : Nat × EQueue α :=
  post q now 0 (-1) payload

/-- EventQueue::call_in (EventQueue.h lines 708-720): as call, but with
equeue_event_delay setting the relative delay in milliseconds. -/
def call_in (q : EQueue α) (now ms : Nat) (payload : α) : Nat × EQueue α :=
  post q now ms (-1) payload

/-- EventQueue::call_every (EventQueue.h lines 787-800): as call_in, but
with equeue_event_period also set, so the first firing comes after one
period and the event then repeats. -/
def call_every (q : EQueue α) (now ms : Nat) (payload : α) : Nat × EQueue α :=
  post q now ms (ms : Int) payload

/-- Modelled from the spec (sections 4.4 and 4.5): cancel decodes the id,
validates the generation against the slot, and only acts when the slot is
still pending: the event is unlinked from the timed queue, its destructor
runs, the generation is incremented (the transition out of pending), and
the slot returns to the free list.  Every other case, an invalid id, a
generation mismatch against a recycled slot, or a slot already executing,
is a no-op returning false. -/
def cancel (q : EQueue α) (id : Nat) : Bool × EQueue α :=
  match decodeId q.slots.length id with
  | none => (false, q)
  | some (i, g) =>
    match q.slots.get? i with
    | none => (false, q)
    | some s =>
      if s.state = SlotState.pending ∧ s.generation % 2 ^ 16 = g then
        match q.pending.find? (fun e => e.slotIdx == i) with
        | none => (false, q)
        | some e =>
          (true, { q with
                    pending := q.pending.eraseP (fun e => e.slotIdx == i)
                    slots := q.slots.set i ⟨s.generation + 1, SlotState.free⟩
                    freeList := i :: q.freeList
                    dtorLog := q.dtorLog ++ [e.payload] })
      else (false, q)

/-- Modelled from the spec (dispatcher, section 4.5): advance a deadline by
multiples of the period until it is no longer in the past, that is, until
it is strictly after now. -/
def advancePastNow (p now d : Nat) : Nat :=
  if _h : 0 < p ∧ d ≤ now then advancePastNow p now (d + p) else d
termination_by now + 1 - d
decreasing_by omega

/-- Modelled from the spec (dispatcher, section 4.5): the periodic
reschedule: add the period to the target deadline, then, if the result is
still in the past, advance it by multiples of the period until it is not. -/
def resched (d p now : Nat) : Nat := advancePastNow p now (d + p)

/-- Modelled from the spec (glossary and section 4.3): an event is due when
its deadline is at or before now under the modular comparison. -/
def dueP (now : Nat) (e : PendEv α) : Bool := tickdiff e.deadline now ≤ 0

/-- Modelled from the spec (sections 4.4 and 4.5): detaching an event for
execution is a transition out of pending, so the slot generation is
incremented and the state becomes executing. -/
def markExecuting (i : Nat) (q : EQueue α) : EQueue α :=
  let s := q.slots.getD i ⟨0, SlotState.free⟩
  { q with slots := q.slots.set i ⟨s.generation + 1, SlotState.executing⟩ }

/-- Modelled from the spec (dispatcher, section 4.5): handling of one
detached due event: mark the slot executing, invoke the payload (recorded
on the invocation log), then either reinsert a periodic event at its
rescheduled deadline or destroy a one-shot: run its destructor (recorded on
the destructor log) and return the slot to the free list. -/
def stepEv (now : Nat) (e : PendEv α) (q : EQueue α) : EQueue α :=
  let q2 :=
    { markExecuting e.slotIdx q with
        fireLog := q.fireLog ++ [e.payload] }
  let s := q2.slots.getD e.slotIdx ⟨0, SlotState.free⟩
  if 0 ≤ e.period then
    { q2 with
        pending :=
          insertPend now { e with deadline := resched e.deadline e.period.toNat now }
            q2.pending
        slots := q2.slots.set e.slotIdx ⟨s.generation, SlotState.pending⟩ }
  else
    { q2 with
        slots := q2.slots.set e.slotIdx ⟨s.generation, SlotState.free⟩
        freeList := e.slotIdx :: q2.freeList
        dtorLog := q2.dtorLog ++ [e.payload] }

/-- Modelled from the spec (dispatcher, section 4.5): process the detached
due events in order. -/
def processDue (now : Nat) : List (PendEv α) → EQueue α → EQueue α
  | [], q => q
  | e :: es, q => processDue now es (stepEv now e q)

/-- Modelled from the spec (dispatcher, section 4.5, and glossary): one
drain pass at the given tick: detach the currently due prefix of the
pending list and process it; the dispatch(0) call performs exactly one such
pass without waiting. -/
def drainPass (now : Nat) (q : EQueue α) : EQueue α :=
  processDue now (q.pending.takeWhile (dueP now))
    { q with pending := q.pending.dropWhile (dueP now) }

/-- Posting scenario used by the ordering claims: post each listed delay in
order with the running index as payload, via call_in, all at the same tick. -/
def postJobs (now : Nat) : List Nat → Nat → EQueue Nat → EQueue Nat
  | [], _, q => q
  | d :: rest, k, q => postJobs now rest (k + 1) (call_in q now d k).2

/-- Post every delay of the list at the given tick, labelling events with
their posting index starting from zero. -/
def postAll (now : Nat) (delays : List Nat) (q : EQueue Nat) : EQueue Nat :=
  postJobs now delays 0 q

/-- Periodic scenario for the drift claims: post one call_every event with
the given period at tick t0 on a one-slot queue, then run one drain pass at
each successive firing tick t0 + p, t0 + 2p, and so on. -/
def iterPasses (p t0 x : Nat) : Nat → EQueue Nat
  | 0 => (call_every (freshQueue Nat 1) t0 p x).2
  | j + 1 => drainPass (t0 + (j + 1) * p) (iterPasses p t0 x j)

/-- Modelled from the spec (chain relay, sections 4.6 and 7): the chain
configuration of a family of queues, indexed by position: each queue holds
an optional chain target stored in its header. -/
def ChainState := List (Option Nat)

/-- Modelled from the spec (section 7, ChainCycle): one step of walking a
chain: the target currently stored in the header of the given queue. -/
def chainNext (cs : ChainState) (i : Nat) : Option Nat :=
  List.getD cs i none

/-- Follow the chain pointers for exactly k steps from a starting queue;
nothing if the chain runs out first. -/
def followN (cs : ChainState) (start : Nat) : Nat → Option Nat
  | 0 => some start
  | k + 1 =>
    match chainNext cs start with
    | none => none
    | some nxt => followN cs nxt k

/-- Modelled from the spec (section 7, ChainCycle): walk the target chain,
reporting whether it reaches the given queue within the fuel bound; the
fuel one-more-than-the-number-of-queues suffices for any acyclic
configuration. -/
def reaches (cs : ChainState) (src : Nat) : Nat → Nat → Bool
  | 0, _ => false
  | fuel + 1, cur =>
    if cur = src then true
    else
      match chainNext cs cur with
      | none => false
      | some nxt => reaches cs src fuel nxt

/-- Modelled from the spec (sections 4.6 and 7): chain installs a target in
the queue header.  A null target removes the chain.  Before installing, the
core walks the target chain: if that walk comes back to the installing
queue (in particular when the target is the queue itself) the call fails
with minus one and changes nothing; otherwise it stores the target and
returns zero. -/
def chainInstall (cs : ChainState) (src : Nat) (tgt : Option Nat) :
    Int × ChainState :=
  match tgt with
  | none => (0, cs.set src none)
  | some t =>
    if reaches cs src (cs.length + 1) t then (-1, cs)
    else (0, cs.set src (some t))

/-- Modelled from the spec (section 6, constants; equeue.h): the equeue
slot stride: the event header plus room for the minimum callable, a
captured function pointer and one word of state, two machine words in all.
Parameters: hdr is the header size, w the machine word size in bytes. -/
def EQUEUE_EVENT_SIZE (hdr w : Nat) : Nat := hdr + 2 * w

/-- EVENTS_EVENT_SIZE (EventQueue.h lines 33-38): the equeue stride with
the two-pointer minimum payload replaced by the size of a
Callback-of-void, written cb here. -/
def EVENTS_EVENT_SIZE (hdr w cb : Nat) : Nat :=
  EQUEUE_EVENT_SIZE hdr w - 2 * w + cb

/-- EVENTS_QUEUE_SIZE (EventQueue.h lines 40-43): the default backing
buffer, thirty-two default-sized slots. -/
def EVENTS_QUEUE_SIZE (hdr w cb : Nat) : Nat := 32 * EVENTS_EVENT_SIZE hdr w cb

/-- EventQueue::function_call (EventQueue.h lines 1081-1085): the invoke
thunk stored with every posted event: it applies the stored zero-arity
callable to no arguments. -/
def function_call (p : Unit → β) : β := p ()

/-- EventQueue::context with no bound arguments (EventQueue.h lines
1097-1109). -/
structure context0 (F : Type) where
  f : F

/-- Invocation of a no-bound-argument context: applies the stored callable;
call-time arguments, if any, follow through the result type. -/
def context0.run (x : context0 F) : F := x.f

/-- EventQueue::context with one bound argument (EventQueue.h lines
1111-1124). -/
structure context1 (F C0 : Type) where
  f : F
  c0 : C0

/-- Invocation of a one-bound-argument context: applies the callable to the
bound argument first; call-time arguments follow through the result type. -/
def context1.run {C0 β : Type} (x : context1 (C0 → β) C0) : β := x.f x.c0

/-- EventQueue::context with two bound arguments (EventQueue.h lines
1126-1140). -/
structure context2 (F C0 C1 : Type) where
  f : F
  c0 : C0
  c1 : C1

/-- Invocation of a two-bound-argument context: bound arguments in capture
order, then any call-time arguments through the result type. -/
def context2.run {C0 C1 β : Type} (x : context2 (C0 → C1 → β) C0 C1) : β :=
  x.f x.c0 x.c1

/-- EventQueue::context with five bound arguments (EventQueue.h lines
1177-1194). -/
structure context5 (F C0 C1 C2 C3 C4 : Type) where
  f : F
  c0 : C0
  c1 : C1
  c2 : C2
  c3 : C3
  c4 : C4

/-- Invocation of a five-bound-argument context: bound arguments in capture
order, then any call-time arguments through the result type. -/
def context5.run {C0 C1 C2 C3 C4 β : Type}
    (x : context5 (C0 → C1 → C2 → C3 → C4 → β) C0 C1 C2 C3 C4) : β :=
  x.f x.c0 x.c1 x.c2 x.c3 x.c4

/-- The bound-argument overload of call (EventQueue.h lines 652-656): wrap
the callable and its arguments in a context object and post that single
zero-arity closure. -/
def call_bound5 {C0 C1 C2 C3 C4 β : Type} (q : EQueue β) (now : Nat)
    (f : C0 → C1 → C2 → C3 → C4 → β) (c0 : C0) (c1 : C1) (c2 : C2) (c3 : C3)
    (c4 : C4) : Nat × EQueue β :=
  call q now ((context5.mk f c0 c1 c2 c3 c4).run)

/-- The strict priority order the pending list maintains at a fixed tick:
earlier modular deadline first, and among equal deadlines the smaller
payload label (the earlier post) first. -/
def Rr (now : Nat) (x y : PendEv Nat) : Prop :=
  tickdiff x.deadline now < tickdiff y.deadline now ∨
  (tickdiff x.deadline now = tickdiff y.deadline now ∧ x.payload < y.payload)

/-- The dispatch order the ordering claims demand on posting indices:
strictly smaller delay first, FIFO (posting order) among equal delays. -/
def ordKey (delays : List Nat) (i j : Nat) : Prop :=
  delays.getD i 0 < delays.getD j 0 ∨
  (delays.getD i 0 = delays.getD j 0 ∧ i < j)

/-- Invariant of the posting loop: after the first k posts the pending list
holds exactly the labels zero up to k minus 1, each event carries the
deadline now plus its own delay and is one-shot, the list is strictly
sorted by the priority order, k slots have been taken from the free list,
and nothing has fired. -/
def C1Inv (now : Nat) (delays : List Nat) (cap k : Nat) (q : EQueue Nat) : Prop :=
  (q.pending.map (fun e => e.payload)).Perm (List.range k) ∧
  (∀ e ∈ q.pending,
    e.payload < k ∧ e.deadline = now + delays.getD e.payload 0 ∧ e.period = -1) ∧
  q.pending.Pairwise (Rr now) ∧
  q.freeList.length + k = cap ∧
  q.fireLog = []

/-! ## Basic facts about the tick arithmetic -/

theorem tickdiff_add_right (a k : Nat) (hk : k < HALF) :
    tickdiff (a + k) a = (k : Int) := by
  have hU : U32 = 2 ^ 32 := rfl
  have hH : HALF = 2 ^ 31 := rfl
  simp only [tickdiff, hU, hH] at *
  have h : (a + k + 2 ^ 32 - a % 2 ^ 32) % 2 ^ 32 = k := by omega
  rw [h]
  split <;> omega

theorem tickdiff_add_left (a k : Nat) (hk : k < HALF) :
    tickdiff a (a + k) = -(k : Int) := by
  have hU : U32 = 2 ^ 32 := rfl
  have hH : HALF = 2 ^ 31 := rfl
  simp only [tickdiff, hU, hH] at *
  have h : (a + 2 ^ 32 - (a + k) % 2 ^ 32) % 2 ^ 32 = (2 ^ 32 - k) % 2 ^ 32 := by
    omega
  rw [h]
  split <;> omega

theorem tickdiff_self (a : Nat) : tickdiff a a = 0 := by
  have h := tickdiff_add_right a 0 (by decide)
  simpa using h

theorem tickdiff_mod (a b : Nat) :
    tickdiff (a % U32) (b % U32) = tickdiff a b := by
  have hU : U32 = 2 ^ 32 := rfl
  simp only [tickdiff, hU]
  have h : (a % 2 ^ 32 + 2 ^ 32 - b % 2 ^ 32 % 2 ^ 32) % 2 ^ 32 =
      (a + 2 ^ 32 - b % 2 ^ 32) % 2 ^ 32 := by omega
  rw [h]

/-! ## Basic facts about the periodic catch-up -/

theorem advancePastNow_of_lt (p now d : Nat) (h : now < d) :
    advancePastNow p now d = d := by
  unfold advancePastNow
  rw [dif_neg]
  omega

theorem advancePastNow_step (p now d : Nat) (hp : 0 < p) (h : d ≤ now) :
    advancePastNow p now d = advancePastNow p now (d + p) := by
  conv_lhs => unfold advancePastNow
  rw [dif_pos ⟨hp, h⟩]

theorem advancePastNow_lt (p now d : Nat) (hp : 0 < p) :
    now < advancePastNow p now d := by
  have aux : ∀ n d, now + 1 - d ≤ n → now < advancePastNow p now d := by
    intro n
    induction n with
    | zero =>
      intro d hd
      have hlt : now < d := by omega
      rw [advancePastNow_of_lt p now d hlt]
      exact hlt
    | succ n ih =>
      intro d hd
      by_cases hle : d ≤ now
      · rw [advancePastNow_step p now d hp hle]
        exact ih (d + p) (by omega)
      · have hlt : now < d := by omega
        rw [advancePastNow_of_lt p now d hlt]
        exact hlt
  exact aux (now + 1) d (by omega)

theorem advancePastNow_mul (p now d : Nat) :
    ∃ k, advancePastNow p now d = d + k * p := by
  have aux : ∀ n d, now + 1 - d ≤ n → ∃ k, advancePastNow p now d = d + k * p := by
    intro n
    induction n with
    | zero =>
      intro d hd
      refine ⟨0, ?_⟩
      have hlt : now < d := by omega
      rw [advancePastNow_of_lt p now d hlt]
      omega
    | succ n ih =>
      intro d hd
      by_cases hp : 0 < p
      · by_cases hle : d ≤ now
        · rw [advancePastNow_step p now d hp hle]
          obtain ⟨k, hk⟩ := ih (d + p) (by omega)
          exact ⟨k + 1, by rw [hk]; ring⟩
        · refine ⟨0, ?_⟩
          rw [advancePastNow_of_lt p now d (by omega)]
          omega
      · refine ⟨0, ?_⟩
        unfold advancePastNow
        rw [dif_neg (by omega)]
        omega
  exact aux (now + 1) d (by omega)

theorem advancePastNow_min (p now d : Nat) (hp : 0 < p) :
    ∀ j, now < d + j * p → advancePastNow p now d ≤ d + j * p := by
  have aux : ∀ n d, now + 1 - d ≤ n →
      ∀ j, now < d + j * p → advancePastNow p now d ≤ d + j * p := by
    intro n
    induction n with
    | zero =>
      intro d hd j hj
      have hlt : now < d := by omega
      rw [advancePastNow_of_lt p now d hlt]
      omega
    | succ n ih =>
      intro d hd j hj
      by_cases hle : d ≤ now
      · rw [advancePastNow_step p now d hp hle]
        match j with
        | 0 => omega
        | j + 1 =>
          have heq : d + p + j * p = d + (j + 1) * p := by ring
          have hrec := ih (d + p) (by omega) j (by omega)
          omega
      · rw [advancePastNow_of_lt p now d (by omega)]
        omega
  exact aux (now + 1) d (by omega)

/-- The reschedule target: strictly after now, reached from the old
deadline by at least one whole period, and minimal among such multiples. -/
theorem resched_spec (d p now : Nat) (hp : 0 < p) :
    now < resched d p now ∧
    (∃ k, 0 < k ∧ resched d p now = d + k * p) ∧
    (∀ k, 0 < k → now < d + k * p → resched d p now ≤ d + k * p) := by
  refine ⟨advancePastNow_lt p now (d + p) hp, ?_, ?_⟩
  · obtain ⟨k, hk⟩ := advancePastNow_mul p now (d + p)
    exact ⟨k + 1, by omega, by rw [resched, hk]; ring⟩
  · intro k hk hlt
    have h := advancePastNow_min p now (d + p) hp (k - 1)
      (by
        have : d + p + (k - 1) * p = d + k * p := by
          have hk1 : k - 1 + 1 = k := by omega
          calc d + p + (k - 1) * p = d + ((k - 1) + 1) * p := by ring
            _ = d + k * p := by rw [hk1]
        omega)
    have heq : d + p + (k - 1) * p = d + k * p := by
      have hk1 : k - 1 + 1 = k := by omega
      calc d + p + (k - 1) * p = d + ((k - 1) + 1) * p := by ring
        _ = d + k * p := by rw [hk1]
    rw [resched]
    omega

/-! ## Basic facts about a drain pass -/

theorem stepEv_fireLog (now : Nat) (e : PendEv α) (q : EQueue α) :
    (stepEv now e q).fireLog = q.fireLog ++ [e.payload] := by
  simp only [stepEv, markExecuting]
  split <;> rfl

theorem processDue_fireLog (now : Nat) (l : List (PendEv α)) (q : EQueue α) :
    (processDue now l q).fireLog = q.fireLog ++ l.map (fun e => e.payload) := by
  induction l generalizing q with
  | nil => simp [processDue]
  | cons e es ih =>
    simp only [processDue, List.map_cons]
    rw [ih, stepEv_fireLog]
    simp

theorem takeWhile_eq_self_of_all (p : α → Bool) (l : List α)
    (h : ∀ x ∈ l, p x = true) : l.takeWhile p = l := by
  induction l with
  | nil => rfl
  | cons x xs ih =>
    have hx : p x = true := h x (by simp)
    have hxs := ih (fun y hy => h y (by simp [hy]))
    simp [List.takeWhile_cons, hx, hxs]

theorem dropWhile_eq_nil_of_all (p : α → Bool) (l : List α)
    (h : ∀ x ∈ l, p x = true) : l.dropWhile p = [] := by
  induction l with
  | nil => rfl
  | cons x xs ih =>
    have hx : p x = true := h x (by simp)
    have hxs := ih (fun y hy => h y (by simp [hy]))
    simp [List.dropWhile_cons, hx, hxs]

theorem drainPass_single_oneshot_logs (now : Nat) (q : EQueue Nat)
    (e : PendEv Nat) (hq : q.pending = [e]) (hone : e.period < 0)
    (hdue : dueP now e = true) :
    (drainPass now q).dtorLog = q.dtorLog ++ [e.payload] ∧
    (drainPass now q).fireLog = q.fireLog ++ [e.payload] ∧
    (drainPass now q).pending = [] := by
  have hnot : ¬ (0 ≤ e.period) := by omega
  simp [drainPass, hq, List.takeWhile_cons, List.dropWhile_cons, hdue,
    processDue, stepEv, markExecuting, hnot]

/-! ## C9: default sizing constants -/

/-- C9: the default backing buffer is exactly 32 default-sized slots, and
the default slot size is large enough for the minimum callable, a captured
function pointer plus one word of state (two machine words in all), plus
the event header; this holds for every header size hdr, machine word size
w, and Callback-of-void size cb of at least two words. -/
theorem default_sizes (hdr w cb : Nat) (hcb : 2 * w ≤ cb) :
    EVENTS_QUEUE_SIZE hdr w cb = 32 * EVENTS_EVENT_SIZE hdr w cb ∧
    EVENTS_EVENT_SIZE hdr w cb = hdr + cb ∧
    2 * w + hdr ≤ EVENTS_EVENT_SIZE hdr w cb := by
  refine ⟨rfl, ?_, ?_⟩ <;>
    simp only [EVENTS_EVENT_SIZE, EQUEUE_EVENT_SIZE] <;> omega

/-- Witness for C9 at a 64-bit machine: word size 8, a 40-byte header and a
16-byte Callback-of-void. -/
theorem default_sizes_witness :
    2 * 8 ≤ 16 ∧
    (EVENTS_QUEUE_SIZE 40 8 16 = 32 * EVENTS_EVENT_SIZE 40 8 16 ∧
     EVENTS_EVENT_SIZE 40 8 16 = 40 + 16 ∧
     2 * 8 + 40 ≤ EVENTS_EVENT_SIZE 40 8 16) :=
  ⟨by decide, default_sizes 40 8 16 (by decide)⟩

/-! ## C4: allocation failure is a pure failure -/

/-- C4: when slot allocation fails, that is, when the free list is empty,
each posting operation, call, call_in and call_every, returns id 0 and
performs no other state change at all: pending list, free list, slot
contents and logs are exactly as before, and no delay, period or
destructor has been registered. -/
theorem alloc_failure_no_change (q : EQueue Nat) (now ms x : Nat)
    (h : q.freeList = []) :
    call q now x = (0, q) ∧ call_in q now ms x = (0, q) ∧
    call_every q now ms x = (0, q) := by
  refine ⟨?_, ?_, ?_⟩ <;> simp [call, call_in, call_every, post, h]

/-- Witness for C4 on a zero-capacity queue, whose free list is empty. -/
theorem alloc_failure_no_change_witness :
    (freshQueue Nat 0).freeList = [] ∧
    (call (freshQueue Nat 0) 5 7 = (0, freshQueue Nat 0) ∧
     call_in (freshQueue Nat 0) 5 9 7 = (0, freshQueue Nat 0) ∧
     call_every (freshQueue Nat 0) 5 9 7 = (0, freshQueue Nat 0)) :=
  ⟨rfl, alloc_failure_no_change (freshQueue Nat 0) 5 9 7 rfl⟩

/-! ## C8: dispatch(0) drains the due prefix and is idempotent when empty -/

/-- C8: a dispatch with a zero timeout performs one drain pass without
waiting: it invokes exactly the currently due prefix of the pending list;
and on a queue with no pending events it changes nothing, so running it
once or twice leaves the same state. -/
theorem dispatch_zero_semantics (now : Nat) (q : EQueue Nat) :
    (drainPass now q).fireLog =
      q.fireLog ++ (q.pending.takeWhile (dueP now)).map (fun e => e.payload) ∧
    (q.pending = [] →
      drainPass now q = q ∧ drainPass now (drainPass now q) = drainPass now q) := by
  constructor
  · rw [drainPass, processDue_fireLog]
  · intro h
    obtain ⟨s, f, pe, fl, dl⟩ := q
    simp only at h
    subst h
    exact ⟨rfl, rfl⟩

/-- Witness for C8 on an empty two-slot queue. -/
theorem dispatch_zero_semantics_witness :
    (drainPass 3 (freshQueue Nat 2)).fireLog =
      (freshQueue Nat 2).fireLog ++
        ((freshQueue Nat 2).pending.takeWhile (dueP 3)).map (fun e => e.payload) ∧
    ((freshQueue Nat 2).pending = [] →
      drainPass 3 (freshQueue Nat 2) = freshQueue Nat 2 ∧
      drainPass 3 (drainPass 3 (freshQueue Nat 2)) = drainPass 3 (freshQueue Nat 2)) :=
  dispatch_zero_semantics 3 (freshQueue Nat 2)

/-! ## C10: argument binding and the zero-arity invocation thunk -/

/-- C10: a context object built by the bound-argument posting overloads,
when invoked with zero arguments through function_call, applies the stored
callable to the bound arguments in their original capture order, before
any call-time arguments (which pass through the curried result type);
posting through the bound-argument overload of call is the same operation
as posting the single zero-arity closure that applies the callable to its
arguments; and the destructor of a dispatched one-shot event runs exactly
once, when the slot is recycled to the free list. -/
theorem context_binding_semantics {C0 C1 C2 C3 C4 β : Type}
    (f : C0 → C1 → C2 → C3 → C4 → β) (c0 : C0) (c1 : C1) (c2 : C2) (c3 : C3)
    (c4 : C4) (g2 : C0 → C1 → β) (g1 : C0 → β) (q : EQueue β) (now : Nat)
    (qn : EQueue Nat) (e : PendEv Nat) (hq : qn.pending = [e])
    (hone : e.period < 0) (hdue : dueP now e = true) :
    function_call (fun _ => (context5.mk f c0 c1 c2 c3 c4).run) =
      f c0 c1 c2 c3 c4 ∧
    (∀ a b, (context2.mk g2 a b).run = g2 a b) ∧
    (∀ a, (context1.mk g1 a).run = g1 a) ∧
    call_bound5 q now f c0 c1 c2 c3 c4 = call q now (f c0 c1 c2 c3 c4) ∧
    (drainPass now qn).dtorLog = qn.dtorLog ++ [e.payload] := by
  refine ⟨rfl, fun a b => rfl, fun a => rfl, rfl, ?_⟩
  exact (drainPass_single_oneshot_logs now qn e hq hone hdue).1

/-- Witness for C10 with concrete functions and a one-event due queue. -/
theorem context_binding_semantics_witness :
    (⟨[⟨0, SlotState.pending⟩], [], [⟨0, 4, -1, 6⟩], [], []⟩ :
        EQueue Nat).pending = [⟨0, 4, -1, 6⟩] ∧
    ((-1 : Int) < 0) ∧
    dueP 9 (⟨0, 4, -1, 6⟩ : PendEv Nat) = true ∧
    (function_call
        (fun _ => (context5.mk (fun a b c d e : Nat => a + b + c + d + e)
          1 2 3 4 5).run) = (fun a b c d e : Nat => a + b + c + d + e) 1 2 3 4 5 ∧
      (∀ a b, (context2.mk (fun u v : Nat => u * v) a b).run =
        (fun u v : Nat => u * v) a b) ∧
      (∀ a, (context1.mk (fun u : Nat => u + 1) a).run =
        (fun u : Nat => u + 1) a) ∧
      call_bound5 (freshQueue Nat 2) 9 (fun a b c d e : Nat => a + b + c + d + e)
          1 2 3 4 5 =
        call (freshQueue Nat 2) 9
          ((fun a b c d e : Nat => a + b + c + d + e) 1 2 3 4 5) ∧
      (drainPass 9
          (⟨[⟨0, SlotState.pending⟩], [], [⟨0, 4, -1, 6⟩], [], []⟩ :
            EQueue Nat)).dtorLog =
        (⟨[⟨0, SlotState.pending⟩], [], [⟨0, 4, -1, 6⟩], [], []⟩ :
          EQueue Nat).dtorLog ++ [(⟨0, 4, -1, 6⟩ : PendEv Nat).payload]) :=
  ⟨rfl, by decide, by decide,
    context_binding_semantics (fun a b c d e : Nat => a + b + c + d + e)
      1 2 3 4 5 (fun u v : Nat => u * v) (fun u : Nat => u + 1)
      (freshQueue Nat 2) 9
      (⟨[⟨0, SlotState.pending⟩], [], [⟨0, 4, -1, 6⟩], [], []⟩ : EQueue Nat)
      (⟨0, 4, -1, 6⟩ : PendEv Nat) rfl (by decide) (by decide)⟩

/-! ## C7: chain installation and cycle detection -/

theorem reaches_sound (cs : ChainState) (src : Nat) :
    ∀ fuel cur, reaches cs src fuel cur = true →
      ∃ k, k < fuel ∧ followN cs cur k = some src := by
  intro fuel
  induction fuel with
  | zero => intro cur h; simp [reaches] at h
  | succ n ih =>
    intro cur h
    by_cases hc : cur = src
    · exact ⟨0, by omega, by simp [followN, hc]⟩
    · simp only [reaches, if_neg hc] at h
      match hnext : chainNext cs cur with
      | none => rw [hnext] at h; simp at h
      | some nxt =>
        rw [hnext] at h
        obtain ⟨k, hk, hf⟩ := ih nxt h
        exact ⟨k + 1, by omega, by rw [followN, hnext]; exact hf⟩

/-- C7: chain with a null target removes any existing chain and returns 0;
chaining a queue onto itself fails with minus one and changes nothing;
whenever the pre-install walk of the target chain comes back to the
installing queue, that is, installing the target would close a cycle of
chained queues, chain fails with minus one and changes nothing, and the
walk is sound: some number of chain-follow steps from the target leads
back to the queue; in every other case chain stores the target in the
queue header and returns 0. -/
theorem chain_semantics (cs : ChainState) (src t : Nat) :
    chainInstall cs src none = (0, cs.set src none) ∧
    chainInstall cs src (some src) = (-1, cs) ∧
    (reaches cs src (cs.length + 1) t = true →
      chainInstall cs src (some t) = (-1, cs) ∧
      ∃ k, k ≤ cs.length ∧ followN cs t k = some src) ∧
    (reaches cs src (cs.length + 1) t = false →
      chainInstall cs src (some t) = (0, cs.set src (some t))) := by
  refine ⟨rfl, ?_, ?_, ?_⟩
  · simp [chainInstall, reaches]
  · intro h
    refine ⟨by simp [chainInstall, h], ?_⟩
    obtain ⟨k, hk, hf⟩ := reaches_sound cs src (cs.length + 1) t h
    exact ⟨k, by omega, hf⟩
  · intro h
    simp [chainInstall, h]

/-- Witness for C7: a three-queue family where queue 1 already chains into
queue 0, so chaining 0 into 1 would close a cycle, while chaining 0 into 2
succeeds, and a null target clears the entry. -/
theorem chain_semantics_witness :
    chainInstall [none, some 0, none] 0 none =
      (0, ([none, some 0, none] : ChainState).set 0 none) ∧
    chainInstall [none, some 0, none] 0 (some 0) = (-1, [none, some 0, none]) ∧
    (reaches [none, some 0, none] 0 4 1 = true →
      chainInstall [none, some 0, none] 0 (some 1) = (-1, [none, some 0, none]) ∧
      ∃ k, k ≤ 3 ∧ followN [none, some 0, none] 1 k = some 0) ∧
    (reaches [none, some 0, none] 0 4 2 = false →
      chainInstall [none, some 0, none] 0 (some 2) =
        (0, ([none, some 0, none] : ChainState).set 0 (some 2))) :=
  ⟨(chain_semantics [none, some 0, none] 0 1).1,
    (chain_semantics [none, some 0, none] 0 1).2.1,
    (chain_semantics [none, some 0, none] 0 1).2.2.1,
    (chain_semantics [none, some 0, none] 0 2).2.2.2⟩

/-! ## C2: periodic firing and the catch-up reschedule -/

theorem drainPass_single_periodic (now : Nat) (q : EQueue Nat)
    (e : PendEv Nat) (hq : q.pending = [e]) (hp : 0 ≤ e.period)
    (hdue : dueP now e = true) :
    (drainPass now q).pending =
      [{ e with deadline := resched e.deadline e.period.toNat now }] ∧
    (drainPass now q).fireLog = q.fireLog ++ [e.payload] := by
  simp [drainPass, hq, List.takeWhile_cons, List.dropWhile_cons, hdue,
    processDue, stepEv, markExecuting, hp, insertPend]

theorem iterPasses_spec (p t0 x : Nat) (hp : 0 < p) :
    ∀ j, (iterPasses p t0 x j).pending =
        [⟨0, t0 + (j + 1) * p, (p : Int), x⟩] ∧
      (iterPasses p t0 x j).fireLog = List.replicate j x := by
  intro j
  induction j with
  | zero =>
    constructor
    · show (call_every (freshQueue Nat 1) t0 p x).2.pending = _
      have h1 : List.range 1 = [0] := rfl
      simp [call_every, post, freshQueue, h1, insertPend]
    · rfl
  | succ j ih =>
    obtain ⟨hpend, hfire⟩ := ih
    have hdue : dueP (t0 + (j + 1) * p)
        (⟨0, t0 + (j + 1) * p, (p : Int), x⟩ : PendEv Nat) = true := by
      simp [dueP, tickdiff_self]
    have h := drainPass_single_periodic (t0 + (j + 1) * p) _ _ hpend
      (by simp) hdue
    have hnext : resched (t0 + (j + 1) * p) ((p : Int)).toNat (t0 + (j + 1) * p) =
        t0 + (j + 1 + 1) * p := by
      rw [Int.toNat_natCast, resched,
        advancePastNow_of_lt p (t0 + (j + 1) * p) (t0 + (j + 1) * p + p)
          (by omega)]
      ring
    constructor
    · show (drainPass (t0 + (j + 1) * p) (iterPasses p t0 x j)).pending = _
      rw [h.1]
      simp only [hnext]
    · show (drainPass (t0 + (j + 1) * p) (iterPasses p t0 x j)).fireLog = _
      rw [h.2, hfire, List.replicate_succ']

/-- C2: a periodic event posted with call_every and period p on an
otherwise idle queue fires exactly once in each drain pass run at the
ticks t0 plus p, t0 plus 2p, and so on, its deadline always the exact next
multiple, so no drift accumulates; and when a drain pass resumes at a tick
past a periodic deadline, exactly one invocation occurs in that pass and
the new deadline, produced by advancing the old deadline by whole periods
until it is no longer in the past, is the smallest deadline-plus-multiple
of p strictly after now. -/
theorem periodic_schedule (p t0 x now d i y : Nat) (q : EQueue Nat)
    (hp : 0 < p) (hq : q.pending = [⟨i, d, (p : Int), y⟩])
    (hpast : d ≤ now) (hwin : now - d < HALF) :
    (∀ j, (iterPasses p t0 x j).pending =
        [⟨0, t0 + (j + 1) * p, (p : Int), x⟩] ∧
      (iterPasses p t0 x j).fireLog = List.replicate j x) ∧
    (drainPass now q).fireLog = q.fireLog ++ [y] ∧
    (drainPass now q).pending = [⟨i, resched d p now, (p : Int), y⟩] ∧
    now < resched d p now ∧
    (∃ k, 0 < k ∧ resched d p now = d + k * p) ∧
    (∀ k, 0 < k → now < d + k * p → resched d p now ≤ d + k * p) := by
  have hdue : dueP now (⟨i, d, (p : Int), y⟩ : PendEv Nat) = true := by
    have hsplit : now = d + (now - d) := by omega
    simp only [dueP]
    rw [hsplit, tickdiff_add_left d (now - d) hwin]
    simp
  have h := drainPass_single_periodic now q ⟨i, d, (p : Int), y⟩ hq
    (by simp) hdue
  obtain ⟨hlt, hmul, hmin⟩ := resched_spec d p now hp
  refine ⟨iterPasses_spec p t0 x hp, h.2, ?_, hlt, hmul, hmin⟩
  rw [h.1]
  simp only [Int.toNat_natCast]

/-- Witness for C2: period 3 posted at tick 10; a resumed pass at tick 20
over a deadline of 5 fires once and reschedules to 23, the smallest
5-plus-multiple-of-3 after 20. -/
theorem periodic_schedule_witness :
    (0 < 3 ∧ (⟨[⟨0, SlotState.pending⟩], [], [⟨0, 5, (3 : Int), 7⟩], [], []⟩ :
        EQueue Nat).pending = [⟨0, 5, ((3 : Nat) : Int), 7⟩] ∧
      5 ≤ 20 ∧ 20 - 5 < HALF) ∧
    ((∀ j, (iterPasses 3 10 8 j).pending =
        [⟨0, 10 + (j + 1) * 3, ((3 : Nat) : Int), 8⟩] ∧
      (iterPasses 3 10 8 j).fireLog = List.replicate j 8) ∧
    (drainPass 20 (⟨[⟨0, SlotState.pending⟩], [], [⟨0, 5, (3 : Int), 7⟩], [], []⟩ :
        EQueue Nat)).fireLog =
      (⟨[⟨0, SlotState.pending⟩], [], [⟨0, 5, (3 : Int), 7⟩], [], []⟩ :
        EQueue Nat).fireLog ++ [7] ∧
    (drainPass 20 (⟨[⟨0, SlotState.pending⟩], [], [⟨0, 5, (3 : Int), 7⟩], [], []⟩ :
        EQueue Nat)).pending = [⟨0, resched 5 3 20, ((3 : Nat) : Int), 7⟩] ∧
    20 < resched 5 3 20 ∧
    (∃ k, 0 < k ∧ resched 5 3 20 = 5 + k * 3) ∧
    (∀ k, 0 < k → 20 < 5 + k * 3 → resched 5 3 20 ≤ 5 + k * 3)) :=
  ⟨⟨by decide, rfl, by decide, by decide⟩,
    periodic_schedule 3 10 8 20 5 0 7
      (⟨[⟨0, SlotState.pending⟩], [], [⟨0, 5, (3 : Int), 7⟩], [], []⟩ : EQueue Nat)
      (by decide) rfl (by decide) (by decide)⟩

/-! ## Handle registry: the encode / decode round trip and cancel -/

theorem cap_lt_pow_shBits (cap : Nat) : cap < 2 ^ shBits cap := by
  rw [shBits]
  by_cases h : cap = 0
  · subst h
    exact Nat.pos_pow_of_pos _ (by norm_num)
  · rw [Nat.log2_eq_log_two]
    exact Nat.lt_pow_succ_log_self (by norm_num) cap

theorem shBits_le_16 (cap : Nat) (hcap : cap < 2 ^ 16) : shBits cap ≤ 16 := by
  rw [shBits]
  by_cases h : cap = 0
  · subst h
    rw [Nat.log2_zero]
    omega
  · rw [Nat.log2_eq_log_two]
    have := Nat.log_lt_of_lt_pow (b := 2) (x := 16) h hcap
    omega

theorem decode_encode (cap g i : Nat) (hi : i < cap) (hcap : cap < 2 ^ 16) :
    decodeId cap (encodeId cap g i) = some (i, g % 2 ^ 16) := by
  have hsh : i + 1 < 2 ^ shBits cap := by
    have := cap_lt_pow_shBits cap
    omega
  have h16 : shBits cap ≤ 16 := shBits_le_16 cap hcap
  have hg : g % 2 ^ 16 < 2 ^ 16 := Nat.mod_lt _ (by norm_num)
  have hpow : (2 : Nat) ^ shBits cap ≤ 2 ^ 16 :=
    Nat.pow_le_pow_right (by norm_num) h16
  have hlt32 : g % 2 ^ 16 * 2 ^ shBits cap + (i + 1) < U32 := by
    have h1 : g % 2 ^ 16 * 2 ^ shBits cap ≤ (2 ^ 16 - 1) * 2 ^ shBits cap :=
      Nat.mul_le_mul_right _ (by omega)
    have h2 : (2 ^ 16 - 1) * 2 ^ shBits cap + 2 ^ shBits cap =
        2 ^ 16 * 2 ^ shBits cap := by
      have h3 : ((2 ^ 16 - 1) + 1) * 2 ^ shBits cap =
          (2 ^ 16 - 1) * 2 ^ shBits cap + 2 ^ shBits cap := by ring
      have h4 : (2 ^ 16 - 1) + 1 = 2 ^ 16 := by norm_num
      rw [← h3, h4]
    have h5 : (2 : Nat) ^ 16 * 2 ^ shBits cap ≤ 2 ^ 16 * 2 ^ 16 :=
      Nat.mul_le_mul_left _ hpow
    have h6 : (2 : Nat) ^ 16 * 2 ^ 16 = 2 ^ 32 := by norm_num
    have h7 : U32 = 2 ^ 32 := rfl
    omega
  have hmod : (g % 2 ^ 16 * 2 ^ shBits cap + (i + 1)) % 2 ^ shBits cap = i + 1 := by
    rw [Nat.mul_comm (g % 2 ^ 16) (2 ^ shBits cap), Nat.mul_add_mod]
    exact Nat.mod_eq_of_lt hsh
  have hdiv : (g % 2 ^ 16 * 2 ^ shBits cap + (i + 1)) / 2 ^ shBits cap =
      g % 2 ^ 16 := by
    rw [Nat.mul_comm (g % 2 ^ 16) (2 ^ shBits cap),
      Nat.mul_add_div (Nat.pos_pow_of_pos _ (by norm_num)),
      Nat.div_eq_of_lt hsh]
    omega
  rw [encodeId, decodeId, Nat.mod_eq_of_lt hlt32, hmod, hdiv, if_neg (by omega)]
  simp

theorem get?_set_self (l : List γ) (i : Nat) (a : γ) (h : i < l.length) :
    (l.set i a).get? i = some a := by
  induction l generalizing i with
  | nil => simp at h
  | cons x xs ih =>
    cases i with
    | zero => rfl
    | succ n =>
      simp only [List.set_cons_succ, List.get?_cons_succ]
      exact ih n (by simpa using h)

theorem getD_set_self (l : List γ) (i : Nat) (a d : γ) (h : i < l.length) :
    (l.set i a).getD i d = a := by
  induction l generalizing i with
  | nil => simp at h
  | cons x xs ih =>
    cases i with
    | zero => rfl
    | succ n =>
      simp only [List.set_cons_succ, List.getD_cons_succ]
      exact ih n (by simpa using h)

/-- Shared computation: cancelling a valid id of a pending slot unlinks the
event, runs its destructor, bumps the generation and frees the slot. -/
theorem cancel_pending_eq (q : EQueue Nat) (i g : Nat) (e : PendEv Nat)
    (hi : i < q.slots.length) (hcap : q.slots.length < 2 ^ 16)
    (hs : q.slots.get? i = some ⟨g, SlotState.pending⟩)
    (hfind : q.pending.find? (fun ev => ev.slotIdx == i) = some e) :
    cancel q (encodeId q.slots.length g i) =
      (true, { q with
                pending := q.pending.eraseP (fun ev => ev.slotIdx == i)
                slots := q.slots.set i ⟨g + 1, SlotState.free⟩
                freeList := i :: q.freeList
                dtorLog := q.dtorLog ++ [e.payload] }) := by
  simp only [cancel, decode_encode q.slots.length g i hi hcap, hs, hfind]
  simp

/-- Shared computation: cancel is a no-op returning false whenever the slot
does not pass the pending-and-matching-generation validation. -/
theorem cancel_invalid_eq (q : EQueue Nat) (i g g' : Nat) (st : SlotState)
    (hi : i < q.slots.length) (hcap : q.slots.length < 2 ^ 16)
    (hs : q.slots.get? i = some ⟨g', st⟩)
    (hne : ¬(st = SlotState.pending ∧ g' % 2 ^ 16 = g % 2 ^ 16)) :
    cancel q (encodeId q.slots.length g i) = (false, q) := by
  simp only [cancel, decode_encode q.slots.length g i hi hcap, hs]
  rw [if_neg hne]

/-- Shared computation: the reserved id 0 decodes to nothing, so cancel of
id 0 is a no-op returning false on any queue. -/
theorem cancel_zero_eq (q0 : EQueue Nat) : cancel q0 0 = (false, q0) := by
  simp [cancel, decodeId]

/-! ## C3: cancellation semantics -/

/-- C3: cancel of a valid id whose slot is still pending always succeeds:
it returns true, unlinks the event from the pending list, runs the
destructor of its payload, increments the slot generation and returns the
slot to the free list; cancel of a slot that is already executing, of a
slot whose generation no longer matches the id (recycled to a different
event), or of the invalid id 0, is a no-op that returns false and leaves
the whole queue state unchanged. -/
theorem cancel_semantics (q : EQueue Nat) (i g : Nat) (e : PendEv Nat)
    (hi : i < q.slots.length) (hcap : q.slots.length < 2 ^ 16) :
    (q.slots.get? i = some ⟨g, SlotState.pending⟩ →
      q.pending.find? (fun ev => ev.slotIdx == i) = some e →
      cancel q (encodeId q.slots.length g i) =
        (true, { q with
                  pending := q.pending.eraseP (fun ev => ev.slotIdx == i)
                  slots := q.slots.set i ⟨g + 1, SlotState.free⟩
                  freeList := i :: q.freeList
                  dtorLog := q.dtorLog ++ [e.payload] })) ∧
    (∀ g', q.slots.get? i = some ⟨g', SlotState.executing⟩ →
      cancel q (encodeId q.slots.length g i) = (false, q)) ∧
    (∀ g' st, q.slots.get? i = some ⟨g', st⟩ → g' % 2 ^ 16 ≠ g % 2 ^ 16 →
      cancel q (encodeId q.slots.length g i) = (false, q)) ∧
    (∀ q0 : EQueue Nat, cancel q0 0 = (false, q0)) := by
  refine ⟨fun hs hfind => cancel_pending_eq q i g e hi hcap hs hfind,
    fun g' hs => cancel_invalid_eq q i g g' SlotState.executing hi hcap hs
      (by simp), fun g' st hs hne =>
      cancel_invalid_eq q i g g' st hi hcap hs (by tauto), cancel_zero_eq⟩

/-- Witness for C3 on a two-slot queue: slot 0 pending with a matching
generation 5, and the no-op cases checked through the same theorem. -/
theorem cancel_semantics_witness :
    (0 : Nat) < 2 ∧ (2 : Nat) < 2 ^ 16 ∧
    (((⟨[⟨5, SlotState.pending⟩, ⟨0, SlotState.free⟩], [1],
        [⟨0, 30, -1, 11⟩], [], []⟩ : EQueue Nat).slots.get? 0 =
          some ⟨5, SlotState.pending⟩ →
      (⟨[⟨5, SlotState.pending⟩, ⟨0, SlotState.free⟩], [1],
        [⟨0, 30, -1, 11⟩], [], []⟩ : EQueue Nat).pending.find?
          (fun ev => ev.slotIdx == 0) = some ⟨0, 30, -1, 11⟩ →
      cancel (⟨[⟨5, SlotState.pending⟩, ⟨0, SlotState.free⟩], [1],
        [⟨0, 30, -1, 11⟩], [], []⟩ : EQueue Nat)
          (encodeId (⟨[⟨5, SlotState.pending⟩, ⟨0, SlotState.free⟩], [1],
            [⟨0, 30, -1, 11⟩], [], []⟩ : EQueue Nat).slots.length 5 0) =
        (true, { (⟨[⟨5, SlotState.pending⟩, ⟨0, SlotState.free⟩], [1],
            [⟨0, 30, -1, 11⟩], [], []⟩ : EQueue Nat) with
                  pending := (⟨[⟨5, SlotState.pending⟩, ⟨0, SlotState.free⟩],
                    [1], [⟨0, 30, -1, 11⟩], [], []⟩ :
                      EQueue Nat).pending.eraseP (fun ev => ev.slotIdx == 0)
                  slots := (⟨[⟨5, SlotState.pending⟩, ⟨0, SlotState.free⟩],
                    [1], [⟨0, 30, -1, 11⟩], [], []⟩ :
                      EQueue Nat).slots.set 0 ⟨5 + 1, SlotState.free⟩
                  freeList := 0 :: (⟨[⟨5, SlotState.pending⟩,
                    ⟨0, SlotState.free⟩], [1], [⟨0, 30, -1, 11⟩], [], []⟩ :
                      EQueue Nat).freeList
                  dtorLog := (⟨[⟨5, SlotState.pending⟩, ⟨0, SlotState.free⟩],
                    [1], [⟨0, 30, -1, 11⟩], [], []⟩ :
                      EQueue Nat).dtorLog ++
                    [(⟨0, 30, -1, 11⟩ : PendEv Nat).payload] })) ∧
      (∀ g', (⟨[⟨5, SlotState.pending⟩, ⟨0, SlotState.free⟩], [1],
          [⟨0, 30, -1, 11⟩], [], []⟩ : EQueue Nat).slots.get? 0 =
            some ⟨g', SlotState.executing⟩ →
        cancel (⟨[⟨5, SlotState.pending⟩, ⟨0, SlotState.free⟩], [1],
          [⟨0, 30, -1, 11⟩], [], []⟩ : EQueue Nat)
            (encodeId 2 5 0) =
          (false, ⟨[⟨5, SlotState.pending⟩, ⟨0, SlotState.free⟩], [1],
            [⟨0, 30, -1, 11⟩], [], []⟩)) ∧
      (∀ g' st, (⟨[⟨5, SlotState.pending⟩, ⟨0, SlotState.free⟩], [1],
          [⟨0, 30, -1, 11⟩], [], []⟩ : EQueue Nat).slots.get? 0 =
            some ⟨g', st⟩ → g' % 2 ^ 16 ≠ 5 % 2 ^ 16 →
        cancel (⟨[⟨5, SlotState.pending⟩, ⟨0, SlotState.free⟩], [1],
          [⟨0, 30, -1, 11⟩], [], []⟩ : EQueue Nat)
            (encodeId 2 5 0) =
          (false, ⟨[⟨5, SlotState.pending⟩, ⟨0, SlotState.free⟩], [1],
            [⟨0, 30, -1, 11⟩], [], []⟩)) ∧
      (∀ q0 : EQueue Nat, cancel q0 0 = (false, q0))) :=
  ⟨by decide, by decide,
    cancel_semantics
      (⟨[⟨5, SlotState.pending⟩, ⟨0, SlotState.free⟩], [1],
        [⟨0, 30, -1, 11⟩], [], []⟩ : EQueue Nat) 0 5 ⟨0, 30, -1, 11⟩
      (by decide) (by decide)⟩

/-! ## C5: generation-based id invalidation -/

theorem encode_succ_ne (cap g i : Nat) (hi : i < cap) (hcap : cap < 2 ^ 16) :
    encodeId cap (g + 1) i ≠ encodeId cap g i := by
  intro h
  have h1 := decode_encode cap (g + 1) i hi hcap
  have h2 := decode_encode cap g i hi hcap
  rw [h] at h1
  rw [h2] at h1
  simp only [Option.some_inj, Prod.mk.injEq] at h1
  omega

theorem encode_ne_zero (cap g i : Nat) (hi : i < cap) (hcap : cap < 2 ^ 16) :
    encodeId cap g i ≠ 0 := by
  intro h
  have h1 := decode_encode cap g i hi hcap
  rw [h] at h1
  rw [decodeId] at h1
  simp at h1

/-- C5: for a valid pending handle, cancelling it succeeds, a subsequent
post that recycles the same slot returns a new id minted from the
incremented generation, which differs from the old id and from 0, and
cancelling the old id afterwards is a no-op returning false; id 0 never
decodes to any slot, so it is never a valid handle. -/
theorem id_generation_recycling (q : EQueue Nat) (i g now y : Nat)
    (e : PendEv Nat) (hi : i < q.slots.length)
    (hcap : q.slots.length < 2 ^ 16)
    (hs : q.slots.get? i = some ⟨g, SlotState.pending⟩)
    (hfind : q.pending.find? (fun ev => ev.slotIdx == i) = some e) :
    (cancel q (encodeId q.slots.length g i)).1 = true ∧
    (call (cancel q (encodeId q.slots.length g i)).2 now y).1 =
      encodeId q.slots.length (g + 1) i ∧
    encodeId q.slots.length (g + 1) i ≠ encodeId q.slots.length g i ∧
    encodeId q.slots.length (g + 1) i ≠ 0 ∧
    cancel (call (cancel q (encodeId q.slots.length g i)).2 now y).2
        (encodeId q.slots.length g i) =
      (false, (call (cancel q (encodeId q.slots.length g i)).2 now y).2) ∧
    (∀ cap0, decodeId cap0 0 = none) := by
  have hq1 := cancel_pending_eq q i g e hi hcap hs hfind
  set q1 := (cancel q (encodeId q.slots.length g i)).2 with hq1def
  have hq1eq : q1 = { q with
      pending := q.pending.eraseP (fun ev => ev.slotIdx == i)
      slots := q.slots.set i ⟨g + 1, SlotState.free⟩
      freeList := i :: q.freeList
      dtorLog := q.dtorLog ++ [e.payload] } := by
    rw [hq1def, hq1]
  have hlen1 : q1.slots.length = q.slots.length := by
    rw [hq1eq]; simp
  have hcall : call q1 now y =
      (encodeId q.slots.length (g + 1) i,
        { q1 with
            freeList := q.freeList
            slots := q1.slots.set i ⟨g + 1, SlotState.pending⟩
            pending := insertPend now ⟨i, now + 0, -1, y⟩ q1.pending }) := by
    rw [call, post]
    have hfl : q1.freeList = i :: q.freeList := by rw [hq1eq]
    rw [hfl]
    have hgetD : q1.slots.getD i ⟨0, SlotState.free⟩ = ⟨g + 1, SlotState.free⟩ := by
      rw [hq1eq]
      exact getD_set_self q.slots i ⟨g + 1, SlotState.free⟩ _ hi
    simp only [hgetD, hlen1]
  refine ⟨by rw [hq1], ?_, encode_succ_ne _ g i hi hcap,
    encode_ne_zero _ (g + 1) i hi hcap, ?_, fun cap0 => by rw [decodeId]; simp⟩
  · rw [hcall]
  · rw [hcall]
    set q2 : EQueue Nat :=
      { q1 with
          freeList := q.freeList
          slots := q1.slots.set i ⟨g + 1, SlotState.pending⟩
          pending := insertPend now ⟨i, now + 0, -1, y⟩ q1.pending } with hq2def
    have hlen2 : q2.slots.length = q.slots.length := by
      rw [hq2def]; simp [hlen1]
    have hs2 : q2.slots.get? i = some ⟨g + 1, SlotState.pending⟩ := by
      rw [hq2def]
      exact get?_set_self q1.slots i ⟨g + 1, SlotState.pending⟩ (by omega)
    have := cancel_invalid_eq q2 i g (g + 1) SlotState.pending
      (by omega) (by omega) hs2 (by intro h; omega)
    rw [hlen2] at this
    exact this

/-- Witness for C5 on the same two-slot queue as the C3 witness. -/
theorem id_generation_recycling_witness :
    (0 : Nat) < 2 ∧
    ((cancel (⟨[⟨5, SlotState.pending⟩, ⟨0, SlotState.free⟩], [1],
        [⟨0, 30, -1, 11⟩], [], []⟩ : EQueue Nat) (encodeId 2 5 0)).1 = true ∧
      (call (cancel (⟨[⟨5, SlotState.pending⟩, ⟨0, SlotState.free⟩], [1],
          [⟨0, 30, -1, 11⟩], [], []⟩ : EQueue Nat) (encodeId 2 5 0)).2 40 12).1 =
        encodeId 2 (5 + 1) 0 ∧
      encodeId 2 (5 + 1) 0 ≠ encodeId 2 5 0 ∧
      encodeId 2 (5 + 1) 0 ≠ 0 ∧
      cancel (call (cancel (⟨[⟨5, SlotState.pending⟩, ⟨0, SlotState.free⟩],
          [1], [⟨0, 30, -1, 11⟩], [], []⟩ : EQueue Nat)
            (encodeId 2 5 0)).2 40 12).2 (encodeId 2 5 0) =
        (false, (call (cancel (⟨[⟨5, SlotState.pending⟩, ⟨0, SlotState.free⟩],
          [1], [⟨0, 30, -1, 11⟩], [], []⟩ : EQueue Nat)
            (encodeId 2 5 0)).2 40 12).2) ∧
      (∀ cap0, decodeId cap0 0 = none)) :=
  ⟨by decide,
    id_generation_recycling
      (⟨[⟨5, SlotState.pending⟩, ⟨0, SlotState.free⟩], [1],
        [⟨0, 30, -1, 11⟩], [], []⟩ : EQueue Nat) 0 5 40 12 ⟨0, 30, -1, 11⟩
      (by decide) (by decide) (by decide) (by decide)⟩

/-! ## C1 and C6: dispatch order -/

theorem insertPend_perm (now : Nat) (e : PendEv α) (l : List (PendEv α)) :
    (insertPend now e l).Perm (e :: l) := by
  induction l with
  | nil => exact List.Perm.refl _
  | cons x xs ih =>
    simp only [insertPend]
    split
    · exact (ih.cons x).trans (List.Perm.swap e x xs)
    · exact List.Perm.refl _

theorem insertPend_pairwise (now : Nat) (e : PendEv Nat)
    (l : List (PendEv Nat)) (hl : l.Pairwise (Rr now))
    (hmax : ∀ x ∈ l, x.payload < e.payload) :
    (insertPend now e l).Pairwise (Rr now) := by
  induction l with
  | nil => simp [insertPend]
  | cons x xs ih =>
    rw [List.pairwise_cons] at hl
    obtain ⟨hx, hxs⟩ := hl
    simp only [insertPend]
    split
    · rename_i hle
      rw [List.pairwise_cons]
      refine ⟨?_, ih hxs (fun z hz => hmax z (List.mem_cons_of_mem x hz))⟩
      intro y hy
      have hy' : y ∈ e :: xs := ((insertPend_perm now e xs).mem_iff).mp hy
      rcases List.mem_cons.mp hy' with rfl | hin
      · rcases lt_or_eq_of_le hle with hlt | heq
        · exact Or.inl hlt
        · exact Or.inr ⟨heq, hmax x (List.mem_cons_self x xs)⟩
      · exact hx y hin
    · rename_i hgt
      push_neg at hgt
      rw [List.pairwise_cons]
      refine ⟨?_, List.Pairwise.cons hx hxs⟩
      intro y hy
      rcases List.mem_cons.mp hy with rfl | hin
      · exact Or.inl hgt
      · rcases hx y hin with hlt | ⟨heq, _⟩
        · exact Or.inl (lt_trans hgt hlt)
        · exact Or.inl (heq ▸ hgt)

theorem c1inv_init (now : Nat) (delays : List Nat) (cap : Nat) :
    C1Inv now delays cap 0 (freshQueue Nat cap) := by
  refine ⟨by simp [freshQueue], by simp [freshQueue], by simp [freshQueue],
    by simp [freshQueue], rfl⟩

theorem postJobs_inv (now : Nat) (delays : List Nat) (cap : Nat) :
    ∀ ds k q, C1Inv now delays cap k q →
      (∀ j, j < ds.length → ds.getD j 0 = delays.getD (k + j) 0) →
      k + ds.length ≤ cap →
      C1Inv now delays cap (k + ds.length) (postJobs now ds k q) := by
  intro ds
  induction ds with
  | nil =>
    intro k q h _ _
    simpa [postJobs] using h
  | cons d rest ih =>
    intro k q hInv hlink hcap
    obtain ⟨hperm, hmem, hpair, hfree, hfire⟩ := hInv
    match hfl : q.freeList with
    | [] =>
      exfalso
      rw [hfl] at hfree
      simp at hfree
      simp at hcap
      omega
    | i :: t =>
      have hq' : (call_in q now d k).2 =
          { q with
              freeList := t
              slots := q.slots.set i
                ⟨(q.slots.getD i ⟨0, SlotState.free⟩).generation,
                  SlotState.pending⟩
              pending := insertPend now ⟨i, now + d, -1, k⟩ q.pending } := by
        rw [call_in, post, hfl]
      have hstep : C1Inv now delays cap (k + 1) (call_in q now d k).2 := by
        rw [hq']
        refine ⟨?_, ?_, ?_, ?_, hfire⟩
        · have h1 :=
            (insertPend_perm now (⟨i, now + d, -1, k⟩ : PendEv Nat)
              q.pending).map (fun e => e.payload)
          have h3 : (k :: q.pending.map (fun e => e.payload)).Perm
              (k :: List.range k) := hperm.cons k
          have h4 : (List.range (k + 1)).Perm (k :: List.range k) := by
            rw [List.range_succ]
            exact List.perm_append_singleton k (List.range k)
          exact (h1.trans h3).trans h4.symm
        · intro e he
          have he' : e ∈ (⟨i, now + d, -1, k⟩ : PendEv Nat) :: q.pending :=
            ((insertPend_perm now _ q.pending).mem_iff).mp he
          rcases List.mem_cons.mp he' with rfl | hin
          · refine ⟨by show k < k + 1; omega, ?_, rfl⟩
            have hd := hlink 0 (by simp)
            simp only [List.getD_cons_zero, Nat.add_zero] at hd
            simp [hd]
          · obtain ⟨h1, h2, h3⟩ := hmem e hin
            exact ⟨by omega, h2, h3⟩
        · exact insertPend_pairwise now _ _ hpair (fun x hx => (hmem x hx).1)
        · rw [hfl] at hfree
          simp only [List.length_cons] at hfree
          simp only []
          omega
      have hrec := ih (k + 1) (call_in q now d k).2 hstep
        (fun j hj => by
          have h := hlink (j + 1) (by simp only [List.length_cons]; omega)
          rw [List.getD_cons_succ] at h
          have harg : k + (j + 1) = k + 1 + j := by omega
          rw [harg] at h
          exact h)
        (by simp only [List.length_cons] at hcap ⊢; omega)
      have harith : k + (d :: rest).length = k + 1 + rest.length := by
        simp only [List.length_cons]
        omega
      rw [postJobs, harith]
      exact hrec

theorem getD_mem_of_lt (l : List Nat) (j : Nat) (h : j < l.length) :
    l.getD j 0 ∈ l := by
  induction l generalizing j with
  | nil => simp at h
  | cons x xs ih =>
    cases j with
    | zero => simp
    | succ n =>
      rw [List.getD_cons_succ]
      exact List.mem_cons_of_mem x (ih n (by simpa using h))

theorem postAll_drain_order (now cap : Nat) (delays : List Nat)
    (hw : ∀ j, j < delays.length → delays.getD j 0 < HALF)
    (hcap : delays.length ≤ cap) :
    ((drainPass (now + (HALF - 1))
        (postAll now delays (freshQueue Nat cap))).fireLog).Perm
      (List.range delays.length) ∧
    ((drainPass (now + (HALF - 1))
        (postAll now delays (freshQueue Nat cap))).fireLog).Pairwise
      (ordKey delays) := by
  have hinv := postJobs_inv now delays cap delays 0 (freshQueue Nat cap)
    (c1inv_init now delays cap) (fun j hj => by simp) (by omega)
  rw [Nat.zero_add] at hinv
  obtain ⟨hperm, hmem, hpair, hfree, hfire⟩ := hinv
  have hHpos : 0 < HALF := by
    have : HALF = 2 ^ 31 := rfl
    omega
  have hdue : ∀ e ∈ (postAll now delays (freshQueue Nat cap)).pending,
      dueP (now + (HALF - 1)) e = true := by
    intro e he
    obtain ⟨hlt, hdl, _⟩ := hmem e he
    have hdelay : delays.getD e.payload 0 < HALF := hw e.payload hlt
    have hsplit : now + (HALF - 1) =
        (now + delays.getD e.payload 0) +
          (HALF - 1 - delays.getD e.payload 0) := by omega
    simp only [dueP, hdl]
    rw [hsplit, tickdiff_add_left _ _ (by omega)]
    simp
  have hfl2 : (drainPass (now + (HALF - 1))
      (postAll now delays (freshQueue Nat cap))).fireLog =
      (postAll now delays (freshQueue Nat cap)).pending.map
        (fun e => e.payload) := by
    simp only [postAll] at hdue ⊢
    rw [drainPass, takeWhile_eq_self_of_all _ _ hdue, processDue_fireLog]
    simp [hfire]
  constructor
  · rw [hfl2]
    exact hperm
  · rw [hfl2, List.pairwise_map]
    refine hpair.imp_of_mem ?_
    intro a b ha hb hab
    obtain ⟨hak, had, _⟩ := hmem a ha
    obtain ⟨hbk, hbd, _⟩ := hmem b hb
    have hda : tickdiff a.deadline now = (delays.getD a.payload 0 : Int) := by
      rw [had]
      exact tickdiff_add_right _ _ (hw _ hak)
    have hdb : tickdiff b.deadline now = (delays.getD b.payload 0 : Int) := by
      rw [hbd]
      exact tickdiff_add_right _ _ (hw _ hbk)
    rcases hab with hlt | ⟨heq, hp2⟩
    · refine Or.inl ?_
      rw [hda, hdb] at hlt
      exact_mod_cast hlt
    · refine Or.inr ⟨?_, hp2⟩
      rw [hda, hdb] at heq
      exact_mod_cast heq

/-- C1: for any sequence of posts made at one tick with delays all inside
the half-range window (deadlines in the interval from now up to now plus
2 to the 31, exclusive), a drain pass once everything is due invokes
exactly the posted events, index i posted with delay of the i-th list
entry, in the sort order of their deadlines, events with equal deadlines
firing in posting (FIFO) order. -/
theorem dispatch_order_fifo (now cap : Nat) (delays : List Nat)
    (hw : ∀ d ∈ delays, d < HALF) (hcap : delays.length ≤ cap) :
    ((drainPass (now + (HALF - 1))
        (postAll now delays (freshQueue Nat cap))).fireLog).Perm
      (List.range delays.length) ∧
    ((drainPass (now + (HALF - 1))
        (postAll now delays (freshQueue Nat cap))).fireLog).Pairwise
      (ordKey delays) := by
  refine postAll_drain_order now cap delays ?_ hcap
  intro j hj
  exact hw _ (getD_mem_of_lt delays j hj)

/-- Witness for C1: four posts with delays 3, 1, 1 and 0 at tick 100 on a
four-slot queue. -/
theorem dispatch_order_fifo_witness :
    (∀ d ∈ [3, 1, 1, 0], d < HALF) ∧ ([3, 1, 1, 0] : List Nat).length ≤ 4 ∧
    (((drainPass (100 + (HALF - 1))
        (postAll 100 [3, 1, 1, 0] (freshQueue Nat 4))).fireLog).Perm
      (List.range ([3, 1, 1, 0] : List Nat).length) ∧
    ((drainPass (100 + (HALF - 1))
        (postAll 100 [3, 1, 1, 0] (freshQueue Nat 4))).fireLog).Pairwise
      (ordKey [3, 1, 1, 0])) :=
  ⟨by decide, by decide, dispatch_order_fifo 100 4 [3, 1, 1, 0]
    (by decide) (by decide)⟩

theorem perm_pair_eq {l : List Nat} {a b : Nat} (h : l.Perm [a, b]) :
    l = [a, b] ∨ l = [b, a] := by
  have hlen : l.length = 2 := by simpa using h.length_eq
  match l, hlen with
  | [x, y], _ =>
    have hx : x = a ∨ x = b := by
      have hm := h.mem_iff.mp (show x ∈ [x, y] by simp)
      simpa using hm
    rcases hx with rfl | rfl
    · have h2 : [y].Perm [b] := h.cons_inv
      have h3 : y = b := by
        simpa using h2.mem_iff.mp (show y ∈ [y] by simp)
      subst h3
      exact Or.inl rfl
    · have ha : a = x ∨ a = y := by
        have hm := h.symm.mem_iff.mp (show a ∈ [a, x] by simp)
        simpa using hm
      rcases ha with h4 | h4
      · subst h4
        have h2 : [y].Perm [a] := h.cons_inv
        have h3 : y = a := by
          simpa using h2.mem_iff.mp (show y ∈ [y] by simp)
        subst h3
        exact Or.inl rfl
      · subst h4
        exact Or.inr rfl

/-- C6: the tick counter is the millisecond count reduced modulo 2 to the
32 and wraps there; deadline comparisons depend only on those 32-bit
residues through the signed-difference rule, which still reports the true
delay across the wrap; consequently two events whose deadlines may
straddle the wrap dispatch in deadline order whichever order they were
posted in, also when now sits just below 2 to the 32. -/
theorem tick_wrap_dispatch (now d1 d2 : Nat) (h12 : d1 < d2) (h2 : d2 < HALF) :
    tickOf (now + U32) = tickOf now ∧
    (∀ ms : Nat, tickOf ms < U32) ∧
    (∀ a b : Nat, tickdiff (tickOf a) (tickOf b) = tickdiff a b) ∧
    tickdiff (tickOf (now + d1)) (tickOf now) = (d1 : Int) ∧
    (drainPass (now + (HALF - 1))
      (postAll now [d1, d2] (freshQueue Nat 2))).fireLog = [0, 1] ∧
    (drainPass (now + (HALF - 1))
      (postAll now [d2, d1] (freshQueue Nat 2))).fireLog = [1, 0] := by
  have hU : U32 = 2 ^ 32 := rfl
  refine ⟨by simp [tickOf, Nat.add_mod_right],
    fun ms => Nat.mod_lt _ (by rw [hU]; norm_num),
    fun a b => tickdiff_mod a b, ?_, ?_, ?_⟩
  · simp only [tickOf]
    rw [tickdiff_mod]
    exact tickdiff_add_right now d1 (lt_trans h12 h2)
  · obtain ⟨hperm, hpair⟩ := postAll_drain_order now 2 [d1, d2]
      (by
        intro j hj
        match j with
        | 0 => simpa using lt_trans h12 h2
        | 1 => simpa using h2) (by simp)
    have hr : List.range ([d1, d2] : List Nat).length = [0, 1] := rfl
    rw [hr] at hperm
    rcases perm_pair_eq hperm with h | h
    · exact h
    · exfalso
      rw [h] at hpair
      rw [List.pairwise_cons] at hpair
      have hk := hpair.1 0 (by simp)
      rcases hk with hk | ⟨hk, hk2⟩
      · simp only [List.getD_cons_succ, List.getD_cons_zero] at hk
        omega
      · simp at hk2
  · obtain ⟨hperm, hpair⟩ := postAll_drain_order now 2 [d2, d1]
      (by
        intro j hj
        match j with
        | 0 => simpa using h2
        | 1 => simpa using lt_trans h12 h2) (by simp)
    have hr : List.range ([d2, d1] : List Nat).length = [0, 1] := rfl
    rw [hr] at hperm
    rcases perm_pair_eq hperm with h | h
    · exfalso
      rw [h] at hpair
      rw [List.pairwise_cons] at hpair
      have hk := hpair.1 1 (by simp)
      rcases hk with hk | ⟨hk, hk2⟩
      · simp only [List.getD_cons_succ, List.getD_cons_zero] at hk
        omega
      · simp only [List.getD_cons_succ, List.getD_cons_zero] at hk
        omega
    · exact h

/-- Witness for C6 with now ten ticks below the 2 to the 32 wrap and
delays 5 and 20, so both deadlines land on the far side of the wrap. -/
theorem tick_wrap_dispatch_witness :
    (5 : Nat) < 20 ∧ (20 : Nat) < HALF ∧
    (tickOf (U32 - 10 + U32) = tickOf (U32 - 10) ∧
    (∀ ms : Nat, tickOf ms < U32) ∧
    (∀ a b : Nat, tickdiff (tickOf a) (tickOf b) = tickdiff a b) ∧
    tickdiff (tickOf (U32 - 10 + 5)) (tickOf (U32 - 10)) = ((5 : Nat) : Int) ∧
    (drainPass (U32 - 10 + (HALF - 1))
      (postAll (U32 - 10) [5, 20] (freshQueue Nat 2))).fireLog = [0, 1] ∧
    (drainPass (U32 - 10 + (HALF - 1))
      (postAll (U32 - 10) [20, 5] (freshQueue Nat 2))).fireLog = [1, 0]) :=
  ⟨by decide, by decide, tick_wrap_dispatch (U32 - 10) 5 20 (by decide) (by decide)⟩

end EventQueueModel
